import Mathlib

/-! ### Definitions: the data model and the translated source functions -/

/-- S-part of a basis element: empty (degree 0) or ((x_deg, y_deg), vertices). -/
abbrev SPart : Type := Option ((ℤ × ℤ) × List ℤ)

/-- Basis element: coefficient exponent vector together with the S-part. -/
abbrev BasisElt : Type := List ℤ × SPart

/-- A formal linear combination of keys of type kk with coefficients in R:
the shallow embedding of a Sage CombinatorialFreeModule element. -/
abbrev FreeE (R : Type) (kk : Type) : Type := List (R × kk)

/-- The additive zero of the free module (free_module.zero()). -/
def zeroE {R kk : Type} : FreeE R kk := []

/-- A single basis monomial (free_module.monomial(key)). -/
def monomialE {R kk : Type} [CommRing R] (k : kk) : FreeE R kk := [((1 : R), k)]

/-- Addition of module elements: concatenation of the formal sums. -/
def addE {R kk : Type} (a b : FreeE R kk) : FreeE R kk := a ++ b

/-- Negation of a module element. -/
def negE {R kk : Type} [CommRing R] (a : FreeE R kk) : FreeE R kk :=
  a.map (fun p => (-p.1, p.2))

/-- Subtraction of module elements. -/
def subE {R kk : Type} [CommRing R] (a b : FreeE R kk) : FreeE R kk := addE a (negE b)

/-- Scalar multiplication of a module element by a ring element. -/
def smulE {R kk : Type} [CommRing R] (c : R) (a : FreeE R kk) : FreeE R kk :=
  a.map (fun p => (c * p.1, p.2))

/-- Linear extension of a function on basis keys to module elements:
the module_morphism operation of the free-module abstraction. -/
def linextE {R kk kk' : Type} [CommRing R] (f : kk → FreeE R kk') (e : FreeE R kk) :
    FreeE R kk' :=
  e.flatMap (fun p => smulE p.1 (f p.2))

/-- Total coefficient of a basis key in a formal sum. -/
def coeffE {R kk : Type} [CommRing R] [DecidableEq kk] (e : FreeE R kk) (k : kk) : R :=
  (e.map (fun p => if p.2 = k then p.1 else 0)).sum

/-- Equality of formal sums as module elements: every key receives the same
total coefficient. -/
def ElemEq {R kk : Type} [CommRing R] [DecidableEq kk] (a b : FreeE R kk) : Prop :=
  ∀ k, coeffE a k = coeffE b k

/-- Exact zero test of a module element (element.is_zero() in Sage):
decidable because only keys occurring in the formal sum can have a
nonzero coefficient. -/
def isZeroE {R kk : Type} [CommRing R] [DecidableEq kk] [DecidableEq R]
    (e : FreeE R kk) : Bool :=
  decide (∀ k ∈ e.map Prod.snd, coeffE e k = 0)

/-- Tensor product of two module elements (the Sage tensor constructor),
with basis keys the pairs of basis keys. -/
def tensorE {R kk kk' : Type} [CommRing R] (a : FreeE R kk) (b : FreeE R kk') :
    FreeE R (kk × kk') :=
  a.flatMap (fun p => b.map (fun q => (p.1 * q.1, (p.2, q.2))))

/-- The increment_tuple function of differential.py: the entry whose index
equals position is incremented by 1, all others are kept. -/
def increment_tuple (tup : List ℤ) (position : ℤ) : List ℤ :=
  tup.mapIdx (fun i a => if (i : ℤ) = position then a + 1 else a)

/-- The compute_differential function of differential.py.  The S-part drives
the case split: empty S-part gives zero; a two-vertex tuple is the
homological degree 1 special case; otherwise each vertex is removed in turn
with alternating signs, the x branch firing when x_deg is greater than 1 and
the y branch when y_deg is greater than 1. -/
def compute_differential {R : Type} [CommRing R] (n_vertices : ℕ)
    (basis_element : BasisElt) : FreeE R BasisElt :=
  match basis_element.2 with
  | none => zeroE
  | some ((x_deg, y_deg), vertex_degs) =>
    match vertex_degs with
    | [i, j] =>
        subE
          (monomialE
            (increment_tuple (increment_tuple basis_element.1 i) (j + (n_vertices : ℤ)),
              none))
          (monomialE
            (increment_tuple (increment_tuple basis_element.1 j) (i + (n_vertices : ℤ)),
              none))
    | _ =>
        vertex_degs.enum.flatMap (fun iv =>
          let idx := iv.1
          let vertex := iv.2
          let sign_x : R := if idx % 2 = 0 then 1 else -1
          let sign_y : R := if idx % 2 = 0 then -1 else 1
          let remaining_vertices := vertex_degs.eraseIdx idx
          addE
            (if 1 < x_deg then
              smulE sign_x (monomialE (increment_tuple basis_element.1 vertex,
                some ((x_deg - 1, y_deg), remaining_vertices)))
            else zeroE)
            (if 1 < y_deg then
              smulE sign_y (monomialE
                (increment_tuple basis_element.1 (vertex + (n_vertices : ℤ)),
                  some ((x_deg, y_deg - 1), remaining_vertices)))
            else zeroE))

/-- The create_differential_morphism function of differential.py: the linear
extension of compute_differential to arbitrary module elements. -/
def create_differential_morphism {R : Type} [CommRing R] (n_vertices : ℕ) :
    FreeE R BasisElt → FreeE R BasisElt :=
  linextE (compute_differential n_vertices)

/-- Gap walk of combination_to_tuple: for each successive position i after the
previous position j the loop emits i - j - 1. -/
def combination_gaps (j : ℤ) : List ℤ → List ℤ
  | [] => []
  | i :: rest => (i - j - 1) :: combination_gaps i rest

/-- The combination_to_tuple function of basis.py.  The closing gap is
total_degree + len(combination) - (i + 1) where i is the loop variable after
the walk, i.e. the last position.  For a combination of length exactly one the
loop body never runs, so the closing-gap expression reads a name that was
never bound and the source raises NameError; that crash is modeled as none. -/
def combination_to_tuple (combination : List ℤ) (total_degree : ℤ) : Option (List ℤ) :=
  match combination with
  | [] => some [total_degree]
  | [_] => none
  | c0 :: rest =>
      some (c0 :: combination_gaps c0 rest ++
        [total_degree + (combination.length : ℤ) - (rest.getLastD c0 + 1)])

/-- The Sage Combinations enumerator: all strictly increasing selections of k
entries of the list l, in lexicographic order. -/
def Combinations (l : List ℤ) (k : ℕ) : List (List ℤ) :=
  match k, l with
  | 0, _ => [[]]
  | _ + 1, [] => []
  | k + 1, a :: rest =>
      (Combinations rest k).map (fun c => a :: c) ++ Combinations rest (k + 1)

/-- Sequencing of the loop body results: the first crash (none) aborts the
whole enumeration, modeling exception propagation out of the loop. -/
def optionSequence {α : Type} : List (Option α) → Option (List α)
  | [] => some []
  | none :: _ => none
  | some a :: rest => (optionSequence rest).map (fun l => a :: l)

/-- The compute_basis_elements function of basis.py: coefficient degree from
the ring degree, S-basis candidates (x_deg from 1 to h outer, vertex
combinations inner), coefficient-monomial combinations, and their cross
product, in that nested order. -/
def compute_basis_elements (homological_degree : ℕ) (ring_degree : ℤ)
    (n_vertices : ℕ) : Option (List BasisElt) :=
  let coeff_degree : ℤ :=
    if homological_degree = 0 then ring_degree
    else ring_degree - ((homological_degree : ℤ) + 1)
  if coeff_degree < 0 then some []
  else
    let s_basis : List SPart :=
      if homological_degree = 0 then [none]
      else
        (List.range' 1 homological_degree).flatMap (fun x_deg =>
          (Combinations ((List.range n_vertices).map Int.ofNat)
              (homological_degree + 1)).map
            (fun vertex_comb =>
              some (((x_deg : ℤ), (homological_degree : ℤ) + 1 - (x_deg : ℤ)),
                vertex_comb)))
    let coeff_combinations :=
      Combinations
        ((List.range (coeff_degree.toNat + 2 * n_vertices - 1)).map Int.ofNat)
        (2 * n_vertices - 1)
    optionSequence
      (coeff_combinations.flatMap (fun comb =>
        s_basis.map (fun s_elem =>
          (combination_to_tuple comb coeff_degree).map (fun t => (t, s_elem)))))

/-- The scalar_multiply_basis function of product.py: add the two coefficient
exponent vectors componentwise and keep the S-part of the basis element.  The
source asserts the two vectors have equal length; the theorems below carry
that precondition where it matters. -/
def scalar_multiply_basis {R : Type} [CommRing R] (monomial_tuple : List ℤ)
    (basis_element : BasisElt) : FreeE R BasisElt :=
  monomialE
    ((List.range monomial_tuple.length).map (fun i =>
        monomial_tuple.getD i 0 + basis_element.1.getD i 0),
      basis_element.2)

/-- Main multigrading case of compute_multigraded_product in product.py:
union of the vertex tuples (sorted, deduplicated), summed bidegrees, and the
case split on the size of the vertex intersection, with the unknown
coefficient families A and B (the source's coeff_vars_a and coeff_vars_b,
indexed at k + 1).  The source's Python sets are modeled by deduplicated
lists: sorted(set | set) is the insertion sort of the deduplicated
concatenation, and set & set is the deduplicated first tuple filtered by
membership in the second, whose length is the intersection's cardinality. -/
def product_main {R : Type} [CommRing R] (n_vertices : ℕ) (A B : ℕ → R)
    (m1 m2 : List ℤ) (s1 s2 : (ℤ × ℤ) × List ℤ) : FreeE R BasisElt :=
  let vdegs1 := s1.2
  let vdegs2 := s2.2
  let new_vdegs : List ℤ := List.insertionSort (· ≤ ·) (vdegs1 ++ vdegs2).dedup
  let new_x_deg : ℤ := s1.1.1 + s2.1.1
  let new_y_deg : ℤ := s1.1.2 + s2.1.2
  let intersection : List ℤ := vdegs1.dedup.filter (fun v => v ∈ vdegs2)
  let coeff_with_x_increment : ℤ → List ℤ := fun i =>
    (List.range m1.length).map (fun j =>
      m1.getD j 0 + m2.getD j 0 + if (j : ℤ) = i then 1 else 0)
  let coeff_with_y_increment : ℤ → List ℤ := fun i =>
    (List.range m1.length).map (fun j =>
      m1.getD j 0 + m2.getD j 0 + if (j : ℤ) = (n_vertices : ℤ) + i then 1 else 0)
  if intersection.length = 0 then
    new_vdegs.enum.flatMap (fun kv =>
      let k := kv.1
      let vertex := kv.2
      let modified_vdegs := new_vdegs.eraseIdx k
      addE
        (smulE (A (k + 1)) (monomialE (coeff_with_x_increment vertex,
          some ((new_x_deg - 1, new_y_deg), modified_vdegs))))
        (smulE (B (k + 1)) (monomialE (coeff_with_y_increment vertex,
          some ((new_x_deg, new_y_deg - 1), modified_vdegs)))))
  else if intersection.length = 1 then
    intersection.flatMap (fun vertex =>
      let k := new_vdegs.indexOf vertex
      addE
        (smulE (A (k + 1)) (monomialE (coeff_with_x_increment vertex,
          some ((new_x_deg - 1, new_y_deg), new_vdegs))))
        (smulE (B (k + 1)) (monomialE (coeff_with_y_increment vertex,
          some ((new_x_deg, new_y_deg - 1), new_vdegs)))))
  else zeroE

/-- The compute_multigraded_product function of product.py: degree-0
absorption, then the degree bound, then the graded-commutativity ordering
guard, then the main multigrading case.  The source's ordering guard recurses
on the swapped pair; for that pair the absorption and degree-bound branches
are unchanged and the guard is false, so the recursive call reduces to the
main case, inlined here (see compute_multigraded_product_rec below, which
recovers the source's recursive equation). -/
def compute_multigraded_product {R : Type} [CommRing R] (n_vertices : ℕ)
    (coeff_vars_a coeff_vars_b : ℕ → R) :
    BasisElt × BasisElt → FreeE R BasisElt
  | ((m1, none), elem2) => scalar_multiply_basis m1 elem2
  | (elem1, (m2, none)) => scalar_multiply_basis m2 elem1
  | ((m1, some s1), (m2, some s2)) =>
      if n_vertices + 1 < s1.2.length + s2.2.length then zeroE
      else if s1.2.length = 2 ∧ s2.2.length = 2 ∧ s2.2.headD 0 < s1.2.headD 0 then
        negE (product_main n_vertices coeff_vars_a coeff_vars_b m2 m1 s2 s1)
      else product_main n_vertices coeff_vars_a coeff_vars_b m1 m2 s1 s2

/-- The create_product_morphism function of product.py: linear extension of
compute_multigraded_product from pairs of basis keys to the tensor square. -/
def create_product_morphism {R : Type} [CommRing R] (n_vertices : ℕ)
    (coeff_vars_a coeff_vars_b : ℕ → R) :
    FreeE R (BasisElt × BasisElt) → FreeE R BasisElt :=
  linextE (compute_multigraded_product n_vertices coeff_vars_a coeff_vars_b)

/-- The exceptional case of C9: both S-parts are vertex tuples of length
exactly two with distinct first vertices. -/
def swap_antisym_case (f g : BasisElt) : Prop :=
  ∃ s1 s2, f.2 = some s1 ∧ g.2 = some s2 ∧ s1.2.length = 2 ∧
    s2.2.length = 2 ∧ s1.2.headD 0 ≠ s2.2.headD 0

/-- The element_degree function of leibniz.py: 0 for the additive zero, then
the leading stored term decides; empty S-part gives 0, otherwise
x_deg + y_deg of the S-part. -/
def element_degree {R : Type} [CommRing R] [DecidableEq R]
    (element : FreeE R BasisElt) : ℤ :=
  if isZeroE element then 0
  else
    match element with
    | [] => 0
    | (_, first_key) :: _ =>
        match first_key.2 with
        | none => 0
        | some ((x_deg, y_deg), _) => x_deg + y_deg

/-- The compute_leibniz_expression function of leibniz.py:
p(d(f) tensor g) minus p(f tensor d(g)) when element_degree f is even,
plus when it is odd. -/
def compute_leibniz_expression {R : Type} [CommRing R] [DecidableEq R]
    (elem1 elem2 : FreeE R BasisElt)
    (differential : FreeE R BasisElt → FreeE R BasisElt)
    (product : FreeE R (BasisElt × BasisElt) → FreeE R BasisElt)
    (tensor_product : FreeE R BasisElt → FreeE R BasisElt →
      FreeE R (BasisElt × BasisElt)) : FreeE R BasisElt :=
  let deg_f := element_degree elem1
  let product_df_g := product (tensor_product (differential elem1) elem2)
  let product_f_dg := product (tensor_product elem1 (differential elem2))
  if deg_f % 2 = 0 then subE product_df_g product_f_dg
  else addE product_df_g product_f_dg

/-- The verify_leibniz_rule function of leibniz.py: the boolean exact-zero
test of d(p(f tensor g)) minus the Leibniz expression. -/
def verify_leibniz_rule {R : Type} [CommRing R] [DecidableEq R]
    (elem1 elem2 : FreeE R BasisElt)
    (differential : FreeE R BasisElt → FreeE R BasisElt)
    (product : FreeE R (BasisElt × BasisElt) → FreeE R BasisElt)
    (tensor_product : FreeE R BasisElt → FreeE R BasisElt →
      FreeE R (BasisElt × BasisElt)) : Bool :=
  isZeroE
    (subE (differential (product (tensor_product elem1 elem2)))
      (compute_leibniz_expression elem1 elem2 differential product tensor_product))

/-- Well-formedness of a basis element at homological degree h (spec section
3): coefficient vector of length 2 n_vertices with nonnegative entries; the
empty S-part exactly at degree 0; otherwise a positive bidegree summing to
h + 1 and a strictly increasing vertex tuple of length h + 1 drawn from
0, ..., n_vertices - 1. -/
def WellFormedBasis (n h : ℕ) (b : BasisElt) : Prop :=
  b.1.length = 2 * n ∧ (∀ c ∈ b.1, 0 ≤ c) ∧
    match b.2 with
    | none => h = 0
    | some ((x, y), vs) =>
        1 ≤ x ∧ 1 ≤ y ∧ x + y = (h : ℤ) + 1 ∧ vs.length = h + 1 ∧
          List.Sorted (· < ·) vs ∧ ∀ v ∈ vs, 0 ≤ v ∧ v < (n : ℤ)

instance WellFormedBasis.instDecidable (n h : ℕ) (b : BasisElt) :
    Decidable (WellFormedBasis n h b) :=
  match b with
  | (m, none) =>
      (inferInstance : Decidable (m.length = 2 * n ∧ (∀ c ∈ m, 0 ≤ c) ∧ h = 0))
  | (m, some ((x, y), vs)) =>
      (inferInstance : Decidable (m.length = 2 * n ∧ (∀ c ∈ m, 0 ≤ c) ∧
        (1 ≤ x ∧ 1 ≤ y ∧ x + y = (h : ℤ) + 1 ∧ vs.length = h + 1 ∧
          List.Sorted (· < ·) vs ∧ ∀ v ∈ vs, 0 ≤ v ∧ v < (n : ℤ))))

/-- Total ring degree of a basis element: the coefficient-vector sum plus
x_deg + y_deg of the S-part (0 for the empty S-part). -/
def total_ring_degree (b : BasisElt) : ℤ :=
  b.1.sum +
    match b.2 with
    | none => 0
    | some ((x, y), _) => x + y

/-- Indicator ring element of a decidable proposition. -/
def indE {R : Type} [CommRing R] (P : Prop) [Decidable P] : R :=
  if P then 1 else 0

/-- The alternating sign of the differential at position i (the source's
sign_x). -/
def sgnR {R : Type} [CommRing R] (i : ℕ) : R :=
  if i % 2 = 0 then 1 else -1

/-- Key of the x-branch term of the differential removing position i. -/
def dKeyX (m : List ℤ) (x y : ℤ) (vs : List ℤ) (n : ℕ) (i : ℕ) : BasisElt :=
  (increment_tuple m (vs.getD i 0), some ((x - 1, y), vs.eraseIdx i))

/-- Key of the y-branch term of the differential removing position i. -/
def dKeyY (m : List ℤ) (x y : ℤ) (vs : List ℤ) (n : ℕ) (i : ℕ) : BasisElt :=
  (increment_tuple m (vs.getD i 0 + (n : ℤ)), some ((x, y - 1), vs.eraseIdx i))

/-- Remove the two distinct positions p and q from a list (larger index
first, so both removals hit the intended entries). -/
def erase2 (vs : List ℤ) (p q : ℕ) : List ℤ :=
  (vs.eraseIdx (max p q)).eraseIdx (min p q)

/-- Key of an x-removal at position p followed by an x-removal at position q
in the second application of the differential. -/
def ddKeyXX (m : List ℤ) (x y : ℤ) (vs : List ℤ) (p q : ℕ) : BasisElt :=
  (increment_tuple (increment_tuple m (vs.getD p 0)) (vs.getD q 0),
    some ((x - 1 - 1, y), erase2 vs p q))

/-- Key of an x-removal at position p and a y-removal at position q. -/
def ddKeyXY (m : List ℤ) (x y : ℤ) (vs : List ℤ) (n : ℕ) (p q : ℕ) : BasisElt :=
  (increment_tuple (increment_tuple m (vs.getD p 0)) (vs.getD q 0 + (n : ℤ)),
    some ((x - 1, y - 1), erase2 vs p q))

/-- Key of a y-removal at position p and an x-removal at position q. -/
def ddKeyYX (m : List ℤ) (x y : ℤ) (vs : List ℤ) (n : ℕ) (p q : ℕ) : BasisElt :=
  (increment_tuple (increment_tuple m (vs.getD p 0 + (n : ℤ))) (vs.getD q 0),
    some ((x - 1, y - 1), erase2 vs p q))

/-- Key of a y-removal at position p followed by a y-removal at position q. -/
def ddKeyYY (m : List ℤ) (x y : ℤ) (vs : List ℤ) (n : ℕ) (p q : ℕ) : BasisElt :=
  (increment_tuple (increment_tuple m (vs.getD p 0 + (n : ℤ)))
      (vs.getD q 0 + (n : ℤ)),
    some ((x, y - 1 - 1), erase2 vs p q))

/-- Original position of the second removal when the first removal happened
at position i and the second at position j of the shortened tuple. -/
def liftIdx (i j : ℕ) : ℕ := if j < i then j else j + 1

/-- Position in the shortened tuple of the second removal at original
position q, the first removal having happened at position p. -/
def dropIdx (p q : ℕ) : ℕ := if q < p then q else q - 1

/-- Summand of the double sum for d(d(b)) indexed by first removed position i
and position j of the second removal inside the shortened tuple. -/
def ddTermV {R : Type} [CommRing R] (n : ℕ) (m : List ℤ) (x y : ℤ)
    (vs : List ℤ) (k : BasisElt) (i j : ℕ) : R :=
  indE (1 < x) * (sgnR i *
    (indE (1 < x - 1) * (sgnR j *
        indE (dKeyX (increment_tuple m (vs.getD i 0)) (x - 1) y
          (vs.eraseIdx i) n j = k)) +
      indE (1 < y) * (-sgnR j *
        indE (dKeyY (increment_tuple m (vs.getD i 0)) (x - 1) y
          (vs.eraseIdx i) n j = k)))) +
  indE (1 < y) * (-sgnR i *
    (indE (1 < x) * (sgnR j *
        indE (dKeyX (increment_tuple m (vs.getD i 0 + (n : ℤ))) x (y - 1)
          (vs.eraseIdx i) n j = k)) +
      indE (1 < y - 1) * (-sgnR j *
        indE (dKeyY (increment_tuple m (vs.getD i 0 + (n : ℤ))) x (y - 1)
          (vs.eraseIdx i) n j = k))))

/-- The same summand reindexed by the pair of original removed positions
(p, q) with p the first removal and q the second. -/
def ddTermW {R : Type} [CommRing R] (n : ℕ) (m : List ℤ) (x y : ℤ)
    (vs : List ℤ) (k : BasisElt) (p q : ℕ) : R :=
  indE (1 < x) * (sgnR p *
    (indE (1 < x - 1) * (sgnR (dropIdx p q) *
        indE (ddKeyXX m x y vs p q = k)) +
      indE (1 < y) * (-sgnR (dropIdx p q) *
        indE (ddKeyXY m x y vs n p q = k)))) +
  indE (1 < y) * (-sgnR p *
    (indE (1 < x) * (sgnR (dropIdx p q) *
        indE (ddKeyYX m x y vs n p q = k)) +
      indE (1 < y - 1) * (-sgnR (dropIdx p q) *
        indE (ddKeyYY m x y vs n p q = k))))

/-! ### Theorems -/

theorem coeffE_nil {R kk : Type} [CommRing R] [DecidableEq kk] (k : kk) :
    coeffE (R := R) [] k = 0 := rfl

theorem coeffE_append {R kk : Type} [CommRing R] [DecidableEq kk]
    (a b : FreeE R kk) (k : kk) :
    coeffE (a ++ b) k = coeffE a k + coeffE b k := by
  simp [coeffE]

theorem coeffE_addE {R kk : Type} [CommRing R] [DecidableEq kk]
    (a b : FreeE R kk) (k : kk) :
    coeffE (addE a b) k = coeffE a k + coeffE b k := coeffE_append a b k

theorem coeffE_negE {R kk : Type} [CommRing R] [DecidableEq kk]
    (a : FreeE R kk) (k : kk) :
    coeffE (negE a) k = -coeffE a k := by
  induction a with
  | nil => simp [negE, coeffE]
  | cons p t ih =>
      simp only [negE, coeffE, List.map_cons, List.sum_cons] at *
      split <;> simp_all <;> ring

theorem coeffE_subE {R kk : Type} [CommRing R] [DecidableEq kk]
    (a b : FreeE R kk) (k : kk) :
    coeffE (subE a b) k = coeffE a k - coeffE b k := by
  rw [subE, coeffE_addE, coeffE_negE]; ring

theorem coeffE_smulE {R kk : Type} [CommRing R] [DecidableEq kk]
    (c : R) (a : FreeE R kk) (k : kk) :
    coeffE (smulE c a) k = c * coeffE a k := by
  induction a with
  | nil => simp [smulE, coeffE]
  | cons p t ih =>
      simp only [smulE, coeffE, List.map_cons, List.sum_cons] at *
      split <;> simp_all <;> ring

theorem coeffE_monomialE {R kk : Type} [CommRing R] [DecidableEq kk]
    (b : kk) (k : kk) :
    coeffE (monomialE (R := R) b) k = if b = k then 1 else 0 := by
  simp [monomialE, coeffE]

theorem coeffE_flatMap {R kk aa : Type} [CommRing R] [DecidableEq kk]
    (l : List aa) (f : aa → FreeE R kk) (k : kk) :
    coeffE (l.flatMap f) k = (l.map (fun a => coeffE (f a) k)).sum := by
  induction l with
  | nil => rfl
  | cons a t ih => simp [List.flatMap_cons, coeffE_append, ih]

theorem coeffE_linextE {R kk kk' : Type} [CommRing R] [DecidableEq kk] [DecidableEq kk']
    (f : kk → FreeE R kk') (e : FreeE R kk) (k : kk') :
    coeffE (linextE f e) k = (e.map (fun p => p.1 * coeffE (f p.2) k)).sum := by
  rw [linextE, coeffE_flatMap]
  have hfun : (fun (p : R × kk) => coeffE (smulE p.1 (f p.2)) k) =
      fun p => p.1 * coeffE (f p.2) k :=
    funext fun p => coeffE_smulE p.1 (f p.2) k
  rw [hfun]

theorem coeffE_eq_zero_of_not_mem {R kk : Type} [CommRing R] [DecidableEq kk]
    (e : FreeE R kk) (k : kk) (h : k ∉ e.map Prod.snd) : coeffE e k = 0 := by
  induction e with
  | nil => rfl
  | cons p t ih =>
      simp only [List.map_cons, List.mem_cons, not_or] at h
      simp only [coeffE, List.map_cons, List.sum_cons]
      rw [if_neg (fun hh => h.1 hh.symm)]
      simpa [coeffE] using ih h.2

theorem isZeroE_iff {R kk : Type} [CommRing R] [DecidableEq kk] [DecidableEq R]
    (e : FreeE R kk) : isZeroE e = true ↔ ∀ k, coeffE e k = 0 := by
  rw [isZeroE, decide_eq_true_iff]
  constructor
  · intro h k
    by_cases hk : k ∈ e.map Prod.snd
    · exact h k hk
    · exact coeffE_eq_zero_of_not_mem e k hk
  · intro h k _
    exact h k

theorem increment_tuple_nil (p : ℤ) : increment_tuple [] p = [] := rfl

theorem increment_tuple_cons (a : ℤ) (t : List ℤ) (p : ℤ) :
    increment_tuple (a :: t) p =
      (if p = 0 then a + 1 else a) :: increment_tuple t (p - 1) := by
  unfold increment_tuple
  rw [List.mapIdx_cons]
  refine congrArg₂ List.cons ?_ ?_
  · simp [eq_comm]
  · have hfun : (fun (i : ℕ) (b : ℤ) => if ((i + 1 : ℕ) : ℤ) = p then b + 1 else b) =
        (fun (i : ℕ) (b : ℤ) => if (i : ℤ) = p - 1 then b + 1 else b) := by
      funext i b
      by_cases h : (i : ℤ) = p - 1
      · rw [if_pos (by push_cast; omega), if_pos h]
      · rw [if_neg (by push_cast; omega), if_neg h]
    rw [hfun]

theorem increment_tuple_comm (t : List ℤ) (p q : ℤ) :
    increment_tuple (increment_tuple t p) q =
      increment_tuple (increment_tuple t q) p := by
  induction t generalizing p q with
  | nil => rfl
  | cons a t ih =>
      rw [increment_tuple_cons, increment_tuple_cons, increment_tuple_cons,
        increment_tuple_cons, ih]
      by_cases hp : p = 0 <;> by_cases hq : q = 0 <;> simp [hp, hq]

theorem increment_tuple_length (t : List ℤ) (p : ℤ) :
    (increment_tuple t p).length = t.length := by
  induction t generalizing p with
  | nil => rfl
  | cons a t ih => rw [increment_tuple_cons]; simp [ih]

theorem increment_tuple_of_neg (t : List ℤ) (p : ℤ) (h : p < 0) :
    increment_tuple t p = t := by
  induction t generalizing p with
  | nil => rfl
  | cons a t ih =>
      rw [increment_tuple_cons, if_neg (by omega), ih (p - 1) (by omega)]

theorem increment_tuple_sum (t : List ℤ) (p : ℤ) (h0 : 0 ≤ p) (hl : p < t.length) :
    (increment_tuple t p).sum = t.sum + 1 := by
  induction t generalizing p with
  | nil => simp at hl; omega
  | cons a t ih =>
      rw [increment_tuple_cons]
      by_cases hp : p = 0
      · rw [if_pos hp, List.sum_cons, List.sum_cons,
          increment_tuple_of_neg t (p - 1) (by omega)]
        ring
      · rw [if_neg hp, List.sum_cons, List.sum_cons,
          ih (p - 1) (by omega) (by simp at hl; omega)]
        ring

theorem combination_gaps_length (j : ℤ) (l : List ℤ) :
    (combination_gaps j l).length = l.length := by
  induction l generalizing j with
  | nil => rfl
  | cons i rest ih => simp [combination_gaps, ih]

theorem combination_gaps_sum (j : ℤ) (l : List ℤ) :
    (combination_gaps j l).sum = l.getLastD j - j - l.length := by
  induction l generalizing j with
  | nil => simp [combination_gaps]
  | cons i rest ih =>
      rw [combination_gaps, List.sum_cons, ih i, List.getLastD_cons]
      simp only [List.length_cons]
      push_cast
      ring

/-- Postcondition of combination_to_tuple on its non-crashing domain: for a
combination whose length is not one the output exists, has length
len(combination) + 1 and entries summing to total_degree. -/
theorem combination_to_tuple_spec (combination : List ℤ) (total_degree : ℤ)
    (h : combination.length ≠ 1) :
    ∃ t, combination_to_tuple combination total_degree = some t ∧
      t.length = combination.length + 1 ∧ t.sum = total_degree := by
  match combination with
  | [] => exact ⟨[total_degree], rfl, rfl, by simp⟩
  | [c] => simp at h
  | c0 :: c1 :: rest =>
      refine ⟨_, rfl, ?_, ?_⟩
      · simp [combination_gaps_length]
      · simp only [List.sum_cons, List.sum_append, combination_gaps_sum,
          List.getLastD_cons, List.sum_nil, List.length_cons]
        push_cast
        ring

/-- C3 evidence: on the one-element combination the source crashes with
NameError instead of returning a composition; the model returns none. -/
theorem c3_failing_input_eval : combination_to_tuple [0] 0 = none := rfl

theorem Combinations_length (l : List ℤ) (k : ℕ) :
    (Combinations l k).length = l.length.choose k := by
  induction l generalizing k with
  | nil => cases k <;> rfl
  | cons a rest ih =>
      cases k with
      | zero => rfl
      | succ k =>
          simp only [Combinations, List.length_append, List.length_map, ih,
            List.length_cons]
          rw [Nat.choose_succ_succ]

theorem Combinations_mem_length (l : List ℤ) (k : ℕ) (c : List ℤ)
    (hc : c ∈ Combinations l k) : c.length = k := by
  induction l generalizing k c with
  | nil =>
      cases k with
      | zero => simp [Combinations] at hc; simp [hc]
      | succ k => simp [Combinations] at hc
  | cons a rest ih =>
      cases k with
      | zero => simp [Combinations] at hc; simp [hc]
      | succ k =>
          simp only [Combinations, List.mem_append, List.mem_map] at hc
          rcases hc with ⟨c', hc', rfl⟩ | hc'
          · simp [ih k c' hc']
          · exact ih (k + 1) c hc'

theorem optionSequence_all_some {α : Type} (rows : List (Option α))
    (h : ∀ x ∈ rows, x ≠ none) :
    ∃ l, optionSequence rows = some l ∧ l.length = rows.length := by
  induction rows with
  | nil => exact ⟨[], rfl, rfl⟩
  | cons x rest ih =>
      obtain ⟨l, hl, hlen⟩ := ih (fun y hy => h y (List.mem_cons_of_mem x hy))
      cases x with
      | none => exact absurd rfl (h none (List.mem_cons_self _ _))
      | some a => exact ⟨a :: l, by simp [optionSequence, hl], by simp [hlen]⟩

theorem sum_map_const_nat {α : Type} (l : List α) (c : ℕ) :
    (l.map (fun _ => c)).sum = l.length * c := by
  induction l with
  | nil => simp
  | cons a t ih => simp [ih]; ring

theorem Combinations_eq_nil_of_short (l : List ℤ) (k : ℕ) (h : l.length < k) :
    Combinations l k = [] := by
  have := Combinations_length l k
  rw [Nat.choose_eq_zero_of_lt h] at this
  exact List.length_eq_zero.mp this

theorem optionSequence_rows (cc : List (List ℤ)) (sb : List SPart) (cd : ℤ)
    (hok : ∀ comb ∈ cc, sb ≠ [] → ∃ t, combination_to_tuple comb cd = some t) :
    ∃ l,
      optionSequence (cc.flatMap (fun comb =>
          sb.map (fun s_elem =>
            (combination_to_tuple comb cd).map (fun t => (t, s_elem))))) = some l ∧
        l.length = cc.length * sb.length := by
  have hall : ∀ x ∈ cc.flatMap (fun comb =>
      sb.map (fun s_elem =>
        (combination_to_tuple comb cd).map (fun t => (t, s_elem)))), x ≠ none := by
    intro x hx
    rw [List.mem_flatMap] at hx
    obtain ⟨comb, hcomb, hx2⟩ := hx
    rw [List.mem_map] at hx2
    obtain ⟨s, hs, rfl⟩ := hx2
    obtain ⟨t, ht⟩ := hok comb hcomb (List.ne_nil_of_mem hs)
    rw [ht]
    simp
  obtain ⟨l, hl, hlen⟩ := optionSequence_all_some _ hall
  refine ⟨l, hl, ?_⟩
  rw [hlen, List.length_flatMap]
  have hfun : (List.length ∘ fun comb =>
      sb.map (fun s_elem =>
        (combination_to_tuple comb cd).map (fun t => (t, s_elem)))) =
      fun _ => sb.length := by
    funext comb
    simp
  rw [hfun, sum_map_const_nat]

/-- C4: for every n_vertices at least 1, homological degree h at least 1 and
every ring degree, compute_basis_elements returns a list of length
C(c + 2n - 1, 2n - 1) * h * C(n, h + 1) with c = ring_degree - (h + 1), the
count being 0 (empty list) when c is negative. -/
theorem c4_basis_count (homological_degree n_vertices : ℕ) (ring_degree : ℤ)
    (hn : 1 ≤ n_vertices) (hh : 1 ≤ homological_degree) :
    (compute_basis_elements homological_degree ring_degree n_vertices).map
        List.length =
      some
        (if ring_degree - ((homological_degree : ℤ) + 1) < 0 then 0
         else
           ((ring_degree - ((homological_degree : ℤ) + 1)).toNat +
                 2 * n_vertices - 1).choose (2 * n_vertices - 1) *
             (homological_degree * n_vertices.choose (homological_degree + 1))) := by
  have hh0 : homological_degree ≠ 0 := by omega
  rw [compute_basis_elements]
  simp only [if_neg hh0]
  by_cases hc : ring_degree - ((homological_degree : ℤ) + 1) < 0
  · rw [if_pos hc, if_pos hc]
    rfl
  · rw [if_neg hc, if_neg hc]
    obtain ⟨l, hl, hlen⟩ := optionSequence_rows
      (Combinations
        ((List.range ((ring_degree - ((homological_degree : ℤ) + 1)).toNat +
            2 * n_vertices - 1)).map Int.ofNat)
        (2 * n_vertices - 1))
      ((List.range' 1 homological_degree).flatMap (fun x_deg =>
        (Combinations ((List.range n_vertices).map Int.ofNat)
            (homological_degree + 1)).map
          (fun vertex_comb =>
            some (((x_deg : ℤ), (homological_degree : ℤ) + 1 - (x_deg : ℤ)),
              vertex_comb))))
      (ring_degree - ((homological_degree : ℤ) + 1))
      (by
      intro comb hcomb hsb
      by_cases h1 : n_vertices = 1
      · exfalso
        apply hsb
        have hcombs : Combinations ((List.range n_vertices).map Int.ofNat)
            (homological_degree + 1) = [] := by
          apply Combinations_eq_nil_of_short
          rw [List.length_map, List.length_range, h1]
          omega
        rw [hcombs]
        simp
      · have hlen2 : comb.length ≠ 1 := by
          rw [Combinations_mem_length _ _ comb hcomb]
          omega
        obtain ⟨t, ht, -, -⟩ := combination_to_tuple_spec comb _ hlen2
        exact ⟨t, ht⟩)
    rw [hl]
    simp only [Option.map_some']
    congr 1
    rw [hlen]
    rw [Combinations_length, List.length_map, List.length_range]
    have hsb_len :
        ((List.range' 1 homological_degree).flatMap (fun x_deg =>
            (Combinations ((List.range n_vertices).map Int.ofNat)
                (homological_degree + 1)).map
              (fun vertex_comb =>
                some (((x_deg : ℤ), (homological_degree : ℤ) + 1 - (x_deg : ℤ)),
                  vertex_comb)))).length =
          homological_degree * n_vertices.choose (homological_degree + 1) := by
      rw [List.length_flatMap]
      have hfun : (List.length ∘ fun (x_deg : ℕ) =>
          (Combinations ((List.range n_vertices).map Int.ofNat)
              (homological_degree + 1)).map
            (fun vertex_comb =>
              some (((x_deg : ℤ), (homological_degree : ℤ) + 1 - (x_deg : ℤ)),
                vertex_comb))) =
          fun _ => n_vertices.choose (homological_degree + 1) := by
        funext x_deg
        simp [Combinations_length]
      rw [hfun, sum_map_const_nat, List.length_range']
    rw [hsb_len]

/-- Witness for C4: n_vertices = 2, homological degree 1, ring degree 5 give
coefficient degree 3 and exactly C(6,3) * 1 * C(2,2) = 20 basis elements. -/
theorem c4_witness :
    1 ≤ 2 ∧ 1 ≤ 1 ∧
      (compute_basis_elements 1 5 2).map List.length = some 20 := by
  refine ⟨by decide, by decide, ?_⟩
  rw [c4_basis_count 1 2 5 (by decide) (by decide)]
  decide

theorem cmp_none_left {R : Type} [CommRing R] (n : ℕ) (A B : ℕ → R)
    (m1 : List ℤ) (elem2 : BasisElt) :
    compute_multigraded_product n A B ((m1, none), elem2) =
      scalar_multiply_basis m1 elem2 := by
  cases elem2 with
  | mk m2 o2 => cases o2 <;> rfl

theorem cmp_none_right {R : Type} [CommRing R] (n : ℕ) (A B : ℕ → R)
    (m1 : List ℤ) (s1 : (ℤ × ℤ) × List ℤ) (m2 : List ℤ) :
    compute_multigraded_product n A B ((m1, some s1), (m2, none)) =
      scalar_multiply_basis m2 (m1, some s1) := rfl

theorem cmp_some_some {R : Type} [CommRing R] (n : ℕ) (A B : ℕ → R)
    (m1 m2 : List ℤ) (s1 s2 : (ℤ × ℤ) × List ℤ) :
    compute_multigraded_product n A B ((m1, some s1), (m2, some s2)) =
      if n + 1 < s1.2.length + s2.2.length then zeroE
      else if s1.2.length = 2 ∧ s2.2.length = 2 ∧ s2.2.headD 0 < s1.2.headD 0 then
        negE (product_main n A B m2 m1 s2 s1)
      else product_main n A B m1 m2 s1 s2 := rfl

/-- The recursive ordering-guard equation of the source: when both factors
have two-vertex tuples, the degree bound passes and the first factor's first
vertex exceeds the second factor's first vertex, the product is the negated
product of the swapped pair. -/
theorem compute_multigraded_product_rec {R : Type} [CommRing R] (n : ℕ)
    (A B : ℕ → R) (m1 m2 : List ℤ) (s1 s2 : (ℤ × ℤ) × List ℤ)
    (hb : ¬ n + 1 < s1.2.length + s2.2.length)
    (h1 : s1.2.length = 2) (h2 : s2.2.length = 2)
    (hgt : s2.2.headD 0 < s1.2.headD 0) :
    compute_multigraded_product n A B ((m1, some s1), (m2, some s2)) =
      negE (compute_multigraded_product n A B ((m2, some s2), (m1, some s1))) := by
  rw [cmp_some_some n A B m1 m2 s1 s2, if_neg hb, if_pos ⟨h1, h2, hgt⟩,
    cmp_some_some n A B m2 m1 s2 s1,
    if_neg (show ¬ n + 1 < s2.2.length + s1.2.length by omega),
    if_neg (show ¬(s2.2.length = 2 ∧ s1.2.length = 2 ∧
      s1.2.headD 0 < s2.2.headD 0) from fun h => absurd h.2.2 (by omega))]

theorem product_main_comm {R : Type} [CommRing R] (n : ℕ) (A B : ℕ → R)
    (m1 m2 : List ℤ) (s1 s2 : (ℤ × ℤ) × List ℤ)
    (hlen : m1.length = m2.length) :
    product_main n A B m1 m2 s1 s2 = product_main n A B m2 m1 s2 s1 := by
  have hx : ∀ i : ℤ,
      (List.range m1.length).map (fun j =>
          m1.getD j 0 + m2.getD j 0 + if (j : ℤ) = i then 1 else 0) =
        (List.range m2.length).map (fun j =>
          m2.getD j 0 + m1.getD j 0 + if (j : ℤ) = i then 1 else 0) := by
    intro i
    rw [hlen]
    apply List.map_congr_left
    intro j _
    ring
  have hperm : (s1.2.dedup.filter (fun v => v ∈ s2.2)).Perm
      (s2.2.dedup.filter (fun v => v ∈ s1.2)) := by
    rw [List.perm_ext_iff_of_nodup ((List.nodup_dedup _).filter _)
      ((List.nodup_dedup _).filter _)]
    intro a
    simp only [List.mem_filter, List.mem_dedup, decide_eq_true_eq]
    exact and_comm
  have hlen_int := hperm.length_eq
  have hu : List.insertionSort (· ≤ ·) (s1.2 ++ s2.2).dedup =
      List.insertionSort (· ≤ ·) (s2.2 ++ s1.2).dedup := by
    refine List.eq_of_perm_of_sorted ?_ (List.sorted_insertionSort _ _)
      (List.sorted_insertionSort _ _)
    refine ((List.perm_insertionSort _ _).trans ?_).trans
      (List.perm_insertionSort _ _).symm
    rw [List.perm_ext_iff_of_nodup (List.nodup_dedup _) (List.nodup_dedup _)]
    intro a
    simp only [List.mem_dedup, List.mem_append]
    exact or_comm
  have hsing : (s1.2.dedup.filter (fun v => v ∈ s2.2)).length = 1 →
      s1.2.dedup.filter (fun v => v ∈ s2.2) =
        s2.2.dedup.filter (fun v => v ∈ s1.2) := by
    intro h1
    obtain ⟨a, ha⟩ := List.length_eq_one.mp h1
    obtain ⟨b, hb⟩ := List.length_eq_one.mp (hlen_int ▸ h1)
    rw [ha, hb]
    have := hperm
    rw [ha, hb] at this
    exact List.perm_singleton.mp this
  simp only [product_main, hx, hu, hlen_int,
    add_comm s1.1.1 s2.1.1, add_comm s1.1.2 s2.1.2]
  by_cases h0 : (s2.2.dedup.filter (fun v => v ∈ s1.2)).length = 0
  · rw [if_pos h0, if_pos h0]
  · rw [if_neg h0, if_neg h0]
    by_cases h1 : (s2.2.dedup.filter (fun v => v ∈ s1.2)).length = 1
    · rw [if_pos h1, if_pos h1, hsing (hlen_int.trans h1)]
    · rw [if_neg h1, if_neg h1]

theorem negE_negE {R kk : Type} [CommRing R] (a : FreeE R kk) : negE (negE a) = a := by
  simp [negE, List.map_map, Function.comp_def]

theorem smulE_one {R kk : Type} [CommRing R] (a : FreeE R kk) : smulE 1 a = a := by
  simp [smulE]

theorem smulE_neg_one {R kk : Type} [CommRing R] (a : FreeE R kk) :
    smulE (-1) a = negE a := by
  simp [smulE, negE]

theorem scalar_multiply_basis_comm {R : Type} [CommRing R] (m1 m2 : List ℤ)
    (sp : SPart) (hlen : m1.length = m2.length) :
    scalar_multiply_basis (R := R) m1 (m2, sp) =
      scalar_multiply_basis m2 (m1, sp) := by
  simp only [scalar_multiply_basis]
  rw [hlen]
  have hmap : (List.range m2.length).map (fun i => m1.getD i 0 + m2.getD i 0) =
      (List.range m2.length).map (fun i => m2.getD i 0 + m1.getD i 0) :=
    List.map_congr_left (fun i _ => by ring)
  rw [hmap]

theorem product_antisym {R : Type} [CommRing R] (n : ℕ) (A B : ℕ → R)
    (m1 m2 : List ℤ) (s1 s2 : (ℤ × ℤ) × List ℤ)
    (hl1 : s1.2.length = 2) (hl2 : s2.2.length = 2)
    (hne : s1.2.headD 0 ≠ s2.2.headD 0) :
    compute_multigraded_product n A B ((m1, some s1), (m2, some s2)) =
      negE (compute_multigraded_product n A B ((m2, some s2), (m1, some s1))) := by
  rcases lt_trichotomy (s1.2.headD 0) (s2.2.headD 0) with hlt | heq | hgt
  · by_cases hb : n + 1 < s1.2.length + s2.2.length
    · rw [cmp_some_some n A B m1 m2 s1 s2, if_pos hb,
        cmp_some_some n A B m2 m1 s2 s1, if_pos (by omega)]
      rfl
    · rw [cmp_some_some n A B m1 m2 s1 s2, if_neg hb,
        if_neg (show ¬(s1.2.length = 2 ∧ s2.2.length = 2 ∧
          s2.2.headD 0 < s1.2.headD 0) from fun h => absurd h.2.2 (by omega)),
        cmp_some_some n A B m2 m1 s2 s1, if_neg (by omega),
        if_pos ⟨hl2, hl1, hlt⟩, negE_negE]
  · exact absurd heq hne
  · by_cases hb : n + 1 < s1.2.length + s2.2.length
    · rw [cmp_some_some n A B m1 m2 s1 s2, if_pos hb,
        cmp_some_some n A B m2 m1 s2 s1, if_pos (by omega)]
      rfl
    · rw [cmp_some_some n A B m1 m2 s1 s2, if_neg hb, if_pos ⟨hl1, hl2, hgt⟩,
        cmp_some_some n A B m2 m1 s2 s1, if_neg (by omega),
        if_neg (show ¬(s2.2.length = 2 ∧ s1.2.length = 2 ∧
          s1.2.headD 0 < s2.2.headD 0) from fun h => absurd h.2.2 (by omega))]

theorem product_symm {R : Type} [CommRing R] (n : ℕ) (A B : ℕ → R)
    (m1 m2 : List ℤ) (s1 s2 : (ℤ × ℤ) × List ℤ) (hlen : m1.length = m2.length)
    (hsym : ¬(s1.2.length = 2 ∧ s2.2.length = 2 ∧
      s1.2.headD 0 ≠ s2.2.headD 0)) :
    compute_multigraded_product n A B ((m1, some s1), (m2, some s2)) =
      compute_multigraded_product n A B ((m2, some s2), (m1, some s1)) := by
  by_cases hb : n + 1 < s1.2.length + s2.2.length
  · rw [cmp_some_some n A B m1 m2 s1 s2, if_pos hb,
      cmp_some_some n A B m2 m1 s2 s1, if_pos (by omega)]
  · rw [cmp_some_some n A B m1 m2 s1 s2, if_neg hb,
      cmp_some_some n A B m2 m1 s2 s1,
      if_neg (show ¬ n + 1 < s2.2.length + s1.2.length by omega)]
    by_cases h12 : s1.2.length = 2 ∧ s2.2.length = 2
    · have hhead : s1.2.headD 0 = s2.2.headD 0 := by
        by_contra hne
        exact hsym ⟨h12.1, h12.2, hne⟩
      rw [if_neg (show ¬(s1.2.length = 2 ∧ s2.2.length = 2 ∧
            s2.2.headD 0 < s1.2.headD 0) from fun h => absurd h.2.2 (by omega)),
        if_neg (show ¬(s2.2.length = 2 ∧ s1.2.length = 2 ∧
            s1.2.headD 0 < s2.2.headD 0) from fun h => absurd h.2.2 (by omega))]
      exact product_main_comm n A B m1 m2 s1 s2 hlen
    · rw [if_neg (show ¬(s1.2.length = 2 ∧ s2.2.length = 2 ∧
            s2.2.headD 0 < s1.2.headD 0) from fun h => h12 ⟨h.1, h.2.1⟩),
        if_neg (show ¬(s2.2.length = 2 ∧ s1.2.length = 2 ∧
            s1.2.headD 0 < s2.2.headD 0) from fun h => h12 ⟨h.2.1, h.1⟩)]
      exact product_main_comm n A B m1 m2 s1 s2 hlen

/-- C8: for every ordered pair of basis elements whose S-parts are both
non-empty and whose vertex-tuple lengths sum to strictly more than
n_vertices + 1, compute_multigraded_product is the exact additive zero,
regardless of the coefficient families A and B. -/
theorem c8_degree_bound {R : Type} [CommRing R] (n : ℕ) (A B : ℕ → R)
    (m1 m2 : List ℤ) (s1 s2 : (ℤ × ℤ) × List ℤ)
    (h : n + 1 < s1.2.length + s2.2.length) :
    compute_multigraded_product n A B ((m1, some s1), (m2, some s2)) = zeroE := by
  rw [cmp_some_some, if_pos h]

/-- Witness for C8: with n_vertices = 1 two homological-degree-1 factors have
combined vertex-tuple length 4 exceeding n_vertices + 1 = 2, so the product
vanishes whatever the coefficient families are. -/
theorem c8_witness :
    1 + 1 < 2 + 2 ∧
      compute_multigraded_product (R := ℤ) 1 (fun k => (k : ℤ) + 7)
          (fun k => (k : ℤ) + 11)
          (([0, 0], some ((1, 1), [0, 1])), ([0, 0], some ((1, 1), [0, 1]))) =
        zeroE := by
  refine ⟨by decide, ?_⟩
  exact c8_degree_bound 1 _ _ [0, 0] [0, 0] ((1, 1), [0, 1]) ((1, 1), [0, 1])
    (by decide)

/-- C9: for every ordered pair of basis elements with coefficient vectors of
equal length, the product is literally symmetric in its two arguments, except
when both S-parts have vertex tuples of length exactly two with distinct
first vertices, in which case the product of the pair equals the negation of
the product of the swapped pair. -/
theorem c9_product_symmetry {R : Type} [CommRing R] (n : ℕ) (A B : ℕ → R)
    (f g : BasisElt) (hlen : f.1.length = g.1.length) :
    (swap_antisym_case f g →
      compute_multigraded_product n A B (f, g) =
        negE (compute_multigraded_product n A B (g, f))) ∧
    (¬ swap_antisym_case f g →
      compute_multigraded_product n A B (f, g) =
        compute_multigraded_product n A B (g, f)) := by
  obtain ⟨m1, o1⟩ := f
  obtain ⟨m2, o2⟩ := g
  constructor
  · rintro ⟨s1, s2, hf, hg, hl1, hl2, hne⟩
    obtain rfl : o1 = some s1 := hf
    obtain rfl : o2 = some s2 := hg
    exact product_antisym n A B m1 m2 s1 s2 hl1 hl2 hne
  · intro hnot
    cases o1 with
    | none =>
        cases o2 with
        | none =>
            rw [cmp_none_left, cmp_none_left]
            exact scalar_multiply_basis_comm m1 m2 none hlen
        | some s2 => rw [cmp_none_left, cmp_none_right]
    | some s1 =>
        cases o2 with
        | none => rw [cmp_none_right, cmp_none_left]
        | some s2 =>
            exact product_symm n A B m1 m2 s1 s2 hlen
              (fun h => hnot ⟨s1, s2, rfl, rfl, h.1, h.2.1, h.2.2⟩)

/-- Witness for C9 at a concrete antisymmetric instance: n_vertices = 5, both
factors of homological degree 1 with first vertices 1 and 0. -/
theorem c9_witness :
    compute_multigraded_product (R := ℤ) 5 (fun k => (k : ℤ) + 7)
        (fun k => (k : ℤ) + 11)
        ((List.replicate 10 0, some ((1, 1), [1, 2])),
          (List.replicate 10 0, some ((1, 1), [0, 1]))) =
      negE (compute_multigraded_product (R := ℤ) 5 (fun k => (k : ℤ) + 7)
        (fun k => (k : ℤ) + 11)
        ((List.replicate 10 0, some ((1, 1), [0, 1])),
          (List.replicate 10 0, some ((1, 1), [1, 2])))) :=
  (c9_product_symmetry 5 _ _ _ _ (by decide)).1
    ⟨((1, 1), [1, 2]), ((1, 1), [0, 1]), rfl, rfl, by decide, by decide, by decide⟩

/-- C7: for homological-degree-1 basis elements f and g (two-vertex tuples):
if the first vertex of f exceeds the first vertex of g then product(f, g) is
the negation of product(g, f); in every case product(f, g) equals plus or
minus product(g, f) (sign minus exactly when the first vertices differ), and
transporting by the sign twice returns the original value. -/
theorem c7_degree_one_commutativity {R : Type} [CommRing R] (n : ℕ)
    (A B : ℕ → R) (m1 m2 : List ℤ) (x1 y1 x2 y2 a b a2 b2 : ℤ)
    (hlen : m1.length = m2.length) :
    (a2 < a →
      compute_multigraded_product n A B
          ((m1, some ((x1, y1), [a, b])), (m2, some ((x2, y2), [a2, b2]))) =
        negE (compute_multigraded_product n A B
          ((m2, some ((x2, y2), [a2, b2])), (m1, some ((x1, y1), [a, b]))))) ∧
    compute_multigraded_product n A B
        ((m1, some ((x1, y1), [a, b])), (m2, some ((x2, y2), [a2, b2]))) =
      smulE (if a = a2 then (1 : R) else -1)
        (compute_multigraded_product n A B
          ((m2, some ((x2, y2), [a2, b2])), (m1, some ((x1, y1), [a, b])))) ∧
    compute_multigraded_product n A B
        ((m1, some ((x1, y1), [a, b])), (m2, some ((x2, y2), [a2, b2]))) =
      smulE (if a = a2 then (1 : R) else -1)
        (smulE (if a2 = a then (1 : R) else -1)
          (compute_multigraded_product n A B
            ((m1, some ((x1, y1), [a, b])), (m2, some ((x2, y2), [a2, b2]))))) := by
  by_cases hne : a = a2
  · have hsym := product_symm n A B m1 m2 ((x1, y1), [a, b]) ((x2, y2), [a2, b2])
      hlen (fun h => h.2.2 (by simpa using hne))
    refine ⟨fun hlt => absurd hne (by omega), ?_, ?_⟩
    · rw [if_pos hne, smulE_one]
      exact hsym
    · rw [if_pos hne, if_pos hne.symm, smulE_one, smulE_one]
  · have hanti := product_antisym n A B m1 m2 ((x1, y1), [a, b]) ((x2, y2), [a2, b2])
      rfl rfl (by simpa using hne)
    refine ⟨fun _ => hanti, ?_, ?_⟩
    · rw [if_neg hne, smulE_neg_one]
      exact hanti
    · rw [if_neg hne, if_neg (fun h => hne h.symm), smulE_neg_one, smulE_neg_one,
        negE_negE]

/-- Witness for C7 at a concrete instance: n_vertices = 5, first vertices
1 and 0, so the first-vertex-exceeds branch applies and the sign is minus. -/
theorem c7_witness :
    compute_multigraded_product (R := ℤ) 5 (fun k => (k : ℤ) + 7)
        (fun k => (k : ℤ) + 11)
        ((List.replicate 10 0, some ((1, 1), [1, 3])),
          (List.replicate 10 0, some ((1, 1), [0, 2]))) =
      negE (compute_multigraded_product (R := ℤ) 5 (fun k => (k : ℤ) + 7)
        (fun k => (k : ℤ) + 11)
        ((List.replicate 10 0, some ((1, 1), [0, 2])),
          (List.replicate 10 0, some ((1, 1), [1, 3])))) :=
  (c7_degree_one_commutativity 5 _ _ _ _ 1 1 1 1 1 3 0 2 (by decide)).1 (by decide)

/-- C6: for every pair of module elements f and g, compute_leibniz_expression
returns p(d(f) tensor g) minus p(f tensor d(g)) when element_degree f is
even and plus when it is odd, i.e. the right-hand side of the graded Leibniz
rule d(f g) = d(f) g + (-1)^(hom deg f) f d(g), the homological degree being
element_degree f - 1. -/
theorem c6_leibniz_expression {R : Type} [CommRing R] [DecidableEq R]
    (f g : FreeE R BasisElt)
    (d : FreeE R BasisElt → FreeE R BasisElt)
    (p : FreeE R (BasisElt × BasisElt) → FreeE R BasisElt)
    (t : FreeE R BasisElt → FreeE R BasisElt → FreeE R (BasisElt × BasisElt)) :
    compute_leibniz_expression f g d p t =
      addE (p (t (d f) g))
        (smulE ((((element_degree f - 1).negOnePow : ℤˣ) : ℤ) : R)
          (p (t f (d g)))) := by
  by_cases h : element_degree f % 2 = 0
  · have hs : ((((element_degree f - 1).negOnePow : ℤˣ) : ℤ) : R) = -1 := by
      rw [Int.negOnePow_odd _ (Int.odd_iff.mpr (by omega))]
      simp
    rw [compute_leibniz_expression, if_pos h, hs, smulE_neg_one]
    rfl
  · have hs : ((((element_degree f - 1).negOnePow : ℤˣ) : ℤ) : R) = 1 := by
      rw [Int.negOnePow_even _ (Int.even_iff.mpr (by omega))]
      simp
    rw [compute_leibniz_expression, if_neg h, hs, smulE_one]

/-- C2 counterexample: the claim that verify_leibniz_rule returns true on the
spec's end-to-end scenario is false.  Truth of the boolean in the source's
polynomial ring with indeterminate families A and B is equivalent to truth
for every commutative ring and every instantiation of the families; the
instantiation A = B = 0 over the integers already yields false, because the
terms of p(d(f1) tensor f2) carry no unknown coefficient and survive in the
difference. -/
theorem c2_counterexample :
    ¬ (∀ (R : Type) [CommRing R] [DecidableEq R] (A B : ℕ → R),
      verify_leibniz_rule (monomialE (List.replicate 10 0, some ((1, 1), [0, 1])))
        (monomialE (List.replicate 10 0, some ((1, 2), [1, 2, 3])))
        (create_differential_morphism 5) (create_product_morphism 5 A B)
        tensorE = true) := by
  intro hall
  have h := hall ℤ (fun _ => 0) (fun _ => 0)
  exact absurd h (by decide)

/-- C2 amended: verify_leibniz_rule on the end-to-end scenario returns false,
the difference between d(product(f1 tensor f2)) and the Leibniz expression
being nonzero for unconstrained coefficient families (witnessed here by the
zero instantiation over the integers). -/
theorem c2_leibniz_check_false :
    verify_leibniz_rule (R := ℤ)
      (monomialE (List.replicate 10 0, some ((1, 1), [0, 1])))
      (monomialE (List.replicate 10 0, some ((1, 2), [1, 2, 3])))
      (create_differential_morphism 5)
      (create_product_morphism 5 (fun _ => 0) (fun _ => 0)) tensorE = false := by
  decide

theorem increment_tuple_nonneg (t : List ℤ) (p : ℤ) (h : ∀ c ∈ t, 0 ≤ c) :
    ∀ c ∈ increment_tuple t p, 0 ≤ c := by
  induction t generalizing p with
  | nil => simp [increment_tuple_nil]
  | cons a t ih =>
      rw [increment_tuple_cons]
      intro c hc
      rcases List.mem_cons.mp hc with rfl | hc
      · have ha : 0 ≤ a := h a (by simp)
        split <;> omega
      · exact ih (p - 1) (fun c' hc' => h c' (by simp [hc'])) c hc

/-- Unfolding of the general branch of compute_differential: whenever the
vertex tuple does not have exactly two entries, the differential is the
alternating sum over removed vertices. -/
theorem compute_differential_general {R : Type} [CommRing R] (n : ℕ)
    (m : List ℤ) (x y : ℤ) (vs : List ℤ) (hlen : vs.length ≠ 2) :
    compute_differential (R := R) n (m, some ((x, y), vs)) =
      vs.enum.flatMap (fun iv =>
        addE
          (if 1 < x then
            smulE (if iv.1 % 2 = 0 then 1 else -1)
              (monomialE (increment_tuple m iv.2,
                some ((x - 1, y), vs.eraseIdx iv.1)))
          else zeroE)
          (if 1 < y then
            smulE (if iv.1 % 2 = 0 then -1 else 1)
              (monomialE (increment_tuple m (iv.2 + (n : ℤ)),
                some ((x, y - 1), vs.eraseIdx iv.1)))
          else zeroE)) := by
  rcases vs with - | ⟨a, - | ⟨b, - | ⟨c, t⟩⟩⟩
  · rfl
  · rfl
  · exact absurd rfl hlen
  · rfl

/-- Every key of the general branch of the differential is an x-removal or a
y-removal key at some position of the vertex tuple. -/
theorem mem_keys_differential_general (n : ℕ) (m : List ℤ) (x y : ℤ)
    (vs : List ℤ) (hlen : vs.length ≠ 2) (k : BasisElt)
    (hk : k ∈ (compute_differential (R := ℤ) n (m, some ((x, y), vs))).map
      Prod.snd) :
    ∃ idx v, vs[idx]? = some v ∧
      ((1 < x ∧ k = (increment_tuple m v, some ((x - 1, y), vs.eraseIdx idx))) ∨
       (1 < y ∧ k = (increment_tuple m (v + (n : ℤ)),
          some ((x, y - 1), vs.eraseIdx idx)))) := by
  rw [compute_differential_general n m x y vs hlen] at hk
  rw [List.map_flatMap, List.mem_flatMap] at hk
  obtain ⟨⟨idx, v⟩, hiv, hk2⟩ := hk
  rw [List.mem_enum_iff_getElem?] at hiv
  refine ⟨idx, v, hiv, ?_⟩
  rw [addE, List.map_append, List.mem_append] at hk2
  rcases hk2 with hk2 | hk2
  · left
    by_cases hx : 1 < x
    · rw [if_pos hx] at hk2
      simp only [smulE, monomialE, List.map_map, List.map_cons, List.map_nil,
        List.mem_singleton] at hk2
      exact ⟨hx, hk2⟩
    · rw [if_neg hx] at hk2
      simp [zeroE] at hk2
  · right
    by_cases hy : 1 < y
    · rw [if_pos hy] at hk2
      simp only [smulE, monomialE, List.map_map, List.map_cons, List.map_nil,
        List.mem_singleton] at hk2
      exact ⟨hy, hk2⟩
    · rw [if_neg hy] at hk2
      simp [zeroE] at hk2

/-- C10: applying compute_differential to a well-formed basis element of
homological degree h (at least 1) produces only basis elements that are
well-formed of homological degree h - 1 and have the same total ring
degree. -/
theorem c10_differential_preserves_grading (n h : ℕ) (b : BasisElt)
    (hwf : WellFormedBasis n h b) (hh : 1 ≤ h) (k : BasisElt)
    (hk : coeffE (compute_differential (R := ℤ) n b) k ≠ 0) :
    WellFormedBasis n (h - 1) k ∧ total_ring_degree k = total_ring_degree b := by
  have hmem : k ∈ (compute_differential (R := ℤ) n b).map Prod.snd := by
    by_contra hnm
    exact hk (coeffE_eq_zero_of_not_mem _ _ hnm)
  obtain ⟨m, sp⟩ := b
  obtain ⟨hml, hmn, hsp⟩ := hwf
  match sp with
  | none =>
      exact absurd hsp (by omega)
  | some ((x, y), vs) =>
      obtain ⟨hx1, hy1, hxy, hvl, hsort, hrange⟩ := hsp
      by_cases h2 : vs.length = 2
      · -- homological degree 1: the two-vertex special case
        have hhe : h = 1 := by omega
        rcases vs with - | ⟨i, - | ⟨j, rest⟩⟩
        · simp at h2
        · simp at h2
        rcases rest with - | ⟨c3, t⟩
        swap
        · simp only [List.length_cons] at h2
          omega
        · have hij : i < j := List.rel_of_sorted_cons hsort j (by simp)
          have hi := hrange i (by simp)
          have hj := hrange j (by simp)
          simp only [compute_differential, subE, addE, negE, monomialE,
            List.map_append, List.map_cons, List.map_nil, List.mem_append,
            List.mem_singleton, List.mem_cons, List.not_mem_nil, or_false]
            at hmem
          have hkey : ∀ (p q : ℤ), 0 ≤ p → p < (n : ℤ) → 0 ≤ q →
              q < (n : ℤ) →
              WellFormedBasis n (h - 1)
                  (increment_tuple (increment_tuple m p) (q + (n : ℤ)), none) ∧
                total_ring_degree
                    (increment_tuple (increment_tuple m p) (q + (n : ℤ)),
                      none) =
                  total_ring_degree (m, some ((x, y), [i, j])) := by
            intro p q hp0 hpn hq0 hqn
            have hl1 : (increment_tuple m p).length = m.length :=
              increment_tuple_length m p
            refine ⟨⟨?_, ?_, by omega⟩, ?_⟩
            · rw [increment_tuple_length, hl1, hml]
            · exact increment_tuple_nonneg _ _
                (increment_tuple_nonneg _ _ hmn)
            · rw [total_ring_degree, total_ring_degree]
              simp only
              rw [increment_tuple_sum _ _ (by omega) (by rw [hl1, hml]; push_cast; omega),
                increment_tuple_sum _ _ hp0 (by rw [hml]; push_cast; omega)]
              rw [hxy]
              omega
          rcases hmem with rfl | rfl
          · exact hkey i j hi.1 hi.2 hj.1 hj.2
          · exact hkey j i hj.1 hj.2 hi.1 hi.2
      · -- general branch
        obtain ⟨idx, v, hgv, hcase⟩ :=
          mem_keys_differential_general n m x y vs h2 k hmem
        have hidx : idx < vs.length := by
          by_contra hge
          rw [List.getElem?_eq_none (by omega)] at hgv
          exact Option.noConfusion hgv
        have hv : vs[idx] = v := by
          rw [List.getElem?_eq_getElem hidx] at hgv
          exact Option.some.inj hgv
        have hvmem : v ∈ vs := hv ▸ List.getElem_mem hidx
        have hvr := hrange v hvmem
        have herl : (vs.eraseIdx idx).length = h := by
          rw [List.length_eraseIdx, if_pos hidx, hvl]
          omega
        have hsort' : List.Sorted (· < ·) (vs.eraseIdx idx) :=
          List.Pairwise.sublist (List.eraseIdx_sublist vs idx) hsort
        have hrange' : ∀ w ∈ vs.eraseIdx idx, 0 ≤ w ∧ w < (n : ℤ) :=
          fun w hw => hrange w (List.mem_of_mem_eraseIdx hw)
        have hcast : ((h - 1 : ℕ) : ℤ) + 1 = (h : ℤ) := by omega
        rcases hcase with ⟨hx, rfl⟩ | ⟨hy, rfl⟩
        · refine ⟨⟨?_, increment_tuple_nonneg _ _ hmn,
            by omega, by omega, by omega, by omega, hsort', hrange'⟩, ?_⟩
          · rw [increment_tuple_length, hml]
          · rw [total_ring_degree, total_ring_degree]
            simp only
            rw [increment_tuple_sum _ _ hvr.1 (by rw [hml]; push_cast; omega)]
            ring
        · refine ⟨⟨?_, increment_tuple_nonneg _ _ hmn,
            by omega, by omega, by omega, by omega, hsort', hrange'⟩, ?_⟩
          · rw [increment_tuple_length, hml]
          · rw [total_ring_degree, total_ring_degree]
            simp only
            rw [increment_tuple_sum _ _ (by omega) (by rw [hml]; push_cast; omega)]
            ring

/-- Witness for C10 at n_vertices = 2, homological degree 1: the key
(e_0 + e_3, empty S-part) appears in d of the zero-coefficient degree-1
element on vertices (0, 1) and is well-formed of degree 0 with the same
total ring degree. -/
theorem c10_witness :
    WellFormedBasis 2 1 ([0, 0, 0, 0], some ((1, 1), [0, 1])) ∧
      coeffE (compute_differential (R := ℤ) 2
        ([0, 0, 0, 0], some ((1, 1), [0, 1]))) ([1, 0, 0, 1], none) ≠ 0 ∧
      WellFormedBasis 2 0 ([1, 0, 0, 1], none) ∧
      total_ring_degree (([1, 0, 0, 1], none) : BasisElt) =
        total_ring_degree (([0, 0, 0, 0], some ((1, 1), [0, 1])) : BasisElt) := by
  refine ⟨by decide, by decide, ?_⟩
  exact c10_differential_preserves_grading 2 1 _ (by decide) (by decide) _
    (by decide)

theorem ite_eq_indE_mul {R : Type} [CommRing R] (P : Prop) [Decidable P]
    (t : R) : (if P then t else 0) = indE P * t := by
  rw [indE]
  split <;> simp

theorem sgnR_neg_form {R : Type} [CommRing R] (i : ℕ) :
    (if i % 2 = 0 then (-1 : R) else 1) = -sgnR i := by
  rw [sgnR]
  split <;> ring

theorem sgnR_pred {R : Type} [CommRing R] (q : ℕ) (h : 1 ≤ q) :
    sgnR (R := R) (q - 1) = -sgnR q := by
  have hpar : (q - 1) % 2 = 0 ↔ ¬ q % 2 = 0 := by omega
  rw [sgnR, sgnR]
  by_cases hq : q % 2 = 0
  · rw [if_neg (by omega), if_pos hq]
  · rw [if_pos (by omega), if_neg hq]
    ring

theorem getD_eraseIdx (l : List ℤ) (i j : ℕ) (d : ℤ) :
    (l.eraseIdx i).getD j d = l.getD (liftIdx i j) d := by
  induction l generalizing i j with
  | nil => simp [List.eraseIdx]
  | cons a t ih =>
      cases i with
      | zero =>
          rw [List.eraseIdx_cons_zero, liftIdx, if_neg (by omega),
            List.getD_cons_succ]
      | succ i =>
          rw [List.eraseIdx_cons_succ]
          cases j with
          | zero =>
              rw [List.getD_cons_zero, liftIdx, if_pos (by omega),
                List.getD_cons_zero]
          | succ j =>
              rw [List.getD_cons_succ, ih i j, liftIdx, liftIdx]
              by_cases hj : j < i
              · rw [if_pos hj, if_pos (by omega), List.getD_cons_succ]
              · rw [if_neg hj, if_neg (by omega), List.getD_cons_succ]

theorem eraseIdx_eraseIdx (l : List ℤ) (i j : ℕ) (h : i ≤ j) :
    (l.eraseIdx i).eraseIdx j = (l.eraseIdx (j + 1)).eraseIdx i := by
  induction l generalizing i j with
  | nil => rfl
  | cons a t ih =>
      cases i with
      | zero =>
          rw [List.eraseIdx_cons_zero, List.eraseIdx_cons_succ,
            List.eraseIdx_cons_zero]
      | succ i =>
          cases j with
          | zero => omega
          | succ j =>
              rw [List.eraseIdx_cons_succ, List.eraseIdx_cons_succ,
                List.eraseIdx_cons_succ, List.eraseIdx_cons_succ,
                ih i j (by omega)]

theorem eraseIdx_eraseIdx_eq_erase2 (vs : List ℤ) (i j : ℕ) :
    (vs.eraseIdx i).eraseIdx j = erase2 vs i (liftIdx i j) := by
  rw [liftIdx]
  by_cases hj : j < i
  · rw [if_pos hj, erase2, max_eq_left (by omega), min_eq_right (by omega)]
  · rw [if_neg hj, erase2, max_eq_right (by omega), min_eq_left (by omega),
      eraseIdx_eraseIdx vs i j (by omega)]

theorem erase2_symm (vs : List ℤ) (p q : ℕ) : erase2 vs p q = erase2 vs q p := by
  rw [erase2, erase2, max_comm, min_comm]

theorem ddKeyXX_symm (m : List ℤ) (x y : ℤ) (vs : List ℤ) (p q : ℕ) :
    ddKeyXX m x y vs q p = ddKeyXX m x y vs p q := by
  rw [ddKeyXX, ddKeyXX, increment_tuple_comm, erase2_symm vs q p]

theorem ddKeyXY_swap (m : List ℤ) (x y : ℤ) (vs : List ℤ) (n : ℕ) (p q : ℕ) :
    ddKeyXY m x y vs n q p = ddKeyYX m x y vs n p q := by
  rw [ddKeyXY, ddKeyYX, increment_tuple_comm, erase2_symm vs q p]

theorem ddKeyYX_swap (m : List ℤ) (x y : ℤ) (vs : List ℤ) (n : ℕ) (p q : ℕ) :
    ddKeyYX m x y vs n q p = ddKeyXY m x y vs n p q := by
  rw [ddKeyXY, ddKeyYX, increment_tuple_comm, erase2_symm vs q p]

theorem ddKeyYY_symm (m : List ℤ) (x y : ℤ) (vs : List ℤ) (n : ℕ) (p q : ℕ) :
    ddKeyYY m x y vs n q p = ddKeyYY m x y vs n p q := by
  rw [ddKeyYY, ddKeyYY, increment_tuple_comm, erase2_symm vs q p]

theorem smulE_append {R kk : Type} [CommRing R] (c : R) (a b : FreeE R kk) :
    smulE c (a ++ b) = smulE c a ++ smulE c b :=
  List.map_append _ a b

theorem smulE_smulE {R kk : Type} [CommRing R] (a b : R) (l : FreeE R kk) :
    smulE a (smulE b l) = smulE (a * b) l := by
  simp [smulE, List.map_map, Function.comp_def, mul_assoc]

theorem linextE_addE {R kk kk' : Type} [CommRing R] (f : kk → FreeE R kk')
    (a b : FreeE R kk) :
    linextE f (addE a b) = addE (linextE f a) (linextE f b) :=
  List.flatMap_append a b _

theorem linextE_flatMap {R aa kk kk' : Type} [CommRing R]
    (f : kk → FreeE R kk') (l : List aa) (g : aa → FreeE R kk) :
    linextE f (l.flatMap g) = l.flatMap (fun a => linextE f (g a)) :=
  List.flatMap_assoc l g _

theorem linextE_smulE {R kk kk' : Type} [CommRing R] (f : kk → FreeE R kk')
    (c : R) (e : FreeE R kk) :
    linextE f (smulE c e) = smulE c (linextE f e) := by
  induction e with
  | nil => rfl
  | cons p t ih =>
      rw [show smulE c (p :: t) = (c * p.1, p.2) :: smulE c t from rfl,
        show linextE f ((c * p.1, p.2) :: smulE c t) =
          smulE (c * p.1) (f p.2) ++ linextE f (smulE c t) from rfl,
        show linextE f (p :: t) = smulE p.1 (f p.2) ++ linextE f t from rfl,
        ih, smulE_append, smulE_smulE]

theorem linextE_monomialE {R kk kk' : Type} [CommRing R]
    (f : kk → FreeE R kk') (b : kk) :
    linextE f (monomialE b) = f b := by
  rw [monomialE, linextE, List.flatMap_cons, List.flatMap_nil,
    List.append_nil, smulE_one]

theorem enumFrom_eq (k : ℕ) (l : List ℤ) :
    l.enumFrom k = (List.range l.length).map (fun i => (k + i, l.getD i 0)) := by
  induction l generalizing k with
  | nil => rfl
  | cons a t ih =>
      rw [List.enumFrom_cons, ih (k + 1), List.length_cons,
        List.range_succ_eq_map, List.map_cons, List.map_map]
      refine congrArg₂ List.cons (by simp) ?_
      apply List.map_congr_left
      intro i _
      refine Prod.ext ?_ ?_
      · show k + 1 + i = k + (i + 1)
        omega
      · show t.getD i 0 = (a :: t).getD (i + 1) 0
        rw [List.getD_cons_succ]

theorem enum_eq (l : List ℤ) :
    l.enum = (List.range l.length).map (fun i => (i, l.getD i 0)) := by
  rw [show l.enum = l.enumFrom 0 from rfl, enumFrom_eq 0 l]
  apply List.map_congr_left
  intro i _
  simp

theorem sum_range_list {M : Type} [AddCommMonoid M] (n : ℕ) (f : ℕ → M) :
    ∑ i ∈ Finset.range n, f i = ((List.range n).map f).sum := by
  induction n with
  | zero => rfl
  | succ n ih =>
      rw [Finset.sum_range_succ, List.range_succ, List.map_append,
        List.sum_append, ih]
      simp

theorem coeffE_enum_flatMap {R kk : Type} [CommRing R] [DecidableEq kk]
    (vs : List ℤ) (F : ℕ × ℤ → FreeE R kk) (k : kk) :
    coeffE (vs.enum.flatMap F) k =
      ∑ i ∈ Finset.range vs.length, coeffE (F (i, vs.getD i 0)) k := by
  rw [enum_eq, coeffE_flatMap, List.map_map, sum_range_list]
  rfl

/-- Coefficient of a basis key in the general branch of the differential, as
an alternating sum of indicator terms over the removed position. -/
theorem coeffE_differential_general {R : Type} [CommRing R] (n : ℕ)
    (m : List ℤ) (x y : ℤ) (vs : List ℤ) (h2 : vs.length ≠ 2) (k : BasisElt) :
    coeffE (compute_differential (R := R) n (m, some ((x, y), vs))) k =
      ∑ j ∈ Finset.range vs.length,
        (indE (1 < x) * (sgnR j * indE (dKeyX m x y vs n j = k)) +
          indE (1 < y) * (-sgnR j * indE (dKeyY m x y vs n j = k))) := by
  rw [compute_differential_general n m x y vs h2, coeffE_enum_flatMap]
  apply Finset.sum_congr rfl
  intro j hj
  dsimp only
  rw [coeffE_addE,
    apply_ite (fun e => coeffE (R := R) e k),
    apply_ite (fun e => coeffE (R := R) e k),
    coeffE_smulE, coeffE_smulE, coeffE_monomialE, coeffE_monomialE]
  simp only [show coeffE (R := R) zeroE k = 0 from rfl]
  rw [ite_eq_indE_mul (1 < x), ite_eq_indE_mul (1 < y), sgnR_neg_form]
  rw [show (if j % 2 = 0 then (1 : R) else -1) = sgnR j from rfl]
  rfl

/-- Coefficient of a basis key in the twice-applied differential (general
branch), as a sum over the first removed position of signed coefficients of
the once-differentiated keys. -/
theorem coeffE_dd_general {R : Type} [CommRing R] (n : ℕ)
    (m : List ℤ) (x y : ℤ) (vs : List ℤ) (h2 : vs.length ≠ 2) (k : BasisElt) :
    coeffE (linextE (compute_differential (R := R) n)
      (compute_differential n (m, some ((x, y), vs)))) k =
      ∑ i ∈ Finset.range vs.length,
        (indE (1 < x) *
            (sgnR i * coeffE (compute_differential (R := R) n
              (dKeyX m x y vs n i)) k) +
          indE (1 < y) *
            (-sgnR i * coeffE (compute_differential (R := R) n
              (dKeyY m x y vs n i)) k)) := by
  rw [compute_differential_general n m x y vs h2, linextE_flatMap,
    coeffE_enum_flatMap]
  apply Finset.sum_congr rfl
  intro i hi
  dsimp only
  rw [linextE_addE, coeffE_addE,
    apply_ite (linextE (compute_differential (R := R) n)),
    apply_ite (linextE (compute_differential (R := R) n)),
    linextE_smulE, linextE_smulE, linextE_monomialE, linextE_monomialE]
  rw [show linextE (compute_differential (R := R) n) zeroE = zeroE from rfl,
    apply_ite (fun e => coeffE (R := R) e k),
    apply_ite (fun e => coeffE (R := R) e k),
    coeffE_smulE, coeffE_smulE]
  simp only [show coeffE (R := R) zeroE k = 0 from rfl]
  rw [ite_eq_indE_mul (1 < x), ite_eq_indE_mul (1 < y), sgnR_neg_form]
  rw [show (if i % 2 = 0 then (1 : R) else -1) = sgnR i from rfl]
  rfl

theorem dropIdx_liftIdx (i j : ℕ) : dropIdx i (liftIdx i j) = j := by
  rw [liftIdx, dropIdx]
  by_cases hj : j < i
  · rw [if_pos hj, if_pos hj]
  · rw [if_neg hj, if_neg (by omega)]
    omega

theorem bridge_XX (m : List ℤ) (x y : ℤ) (vs : List ℤ) (n : ℕ) (i j : ℕ) :
    dKeyX (increment_tuple m (vs.getD i 0)) (x - 1) y (vs.eraseIdx i) n j =
      ddKeyXX m x y vs i (liftIdx i j) := by
  rw [dKeyX, ddKeyXX, getD_eraseIdx, eraseIdx_eraseIdx_eq_erase2]

theorem bridge_XY (m : List ℤ) (x y : ℤ) (vs : List ℤ) (n : ℕ) (i j : ℕ) :
    dKeyY (increment_tuple m (vs.getD i 0)) (x - 1) y (vs.eraseIdx i) n j =
      ddKeyXY m x y vs n i (liftIdx i j) := by
  rw [dKeyY, ddKeyXY, getD_eraseIdx, eraseIdx_eraseIdx_eq_erase2]

theorem bridge_YX (m : List ℤ) (x y : ℤ) (vs : List ℤ) (n : ℕ) (i j : ℕ) :
    dKeyX (increment_tuple m (vs.getD i 0 + (n : ℤ))) x (y - 1)
        (vs.eraseIdx i) n j =
      ddKeyYX m x y vs n i (liftIdx i j) := by
  rw [dKeyX, ddKeyYX, getD_eraseIdx, eraseIdx_eraseIdx_eq_erase2]

theorem bridge_YY (m : List ℤ) (x y : ℤ) (vs : List ℤ) (n : ℕ) (i j : ℕ) :
    dKeyY (increment_tuple m (vs.getD i 0 + (n : ℤ))) x (y - 1)
        (vs.eraseIdx i) n j =
      ddKeyYY m x y vs n i (liftIdx i j) := by
  rw [dKeyY, ddKeyYY, getD_eraseIdx, eraseIdx_eraseIdx_eq_erase2]

theorem ddTermV_eq_W {R : Type} [CommRing R] (n : ℕ) (m : List ℤ) (x y : ℤ)
    (vs : List ℤ) (k : BasisElt) (i j : ℕ) :
    ddTermV (R := R) n m x y vs k i j =
      ddTermW n m x y vs k i (liftIdx i j) := by
  rw [ddTermW, dropIdx_liftIdx, ddTermV, bridge_XX, bridge_XY, bridge_YX,
    bridge_YY]

theorem ddTermW_add_swap {R : Type} [CommRing R] (n : ℕ) (m : List ℤ)
    (x y : ℤ) (vs : List ℤ) (k : BasisElt) (p q : ℕ) (hpq : p < q) :
    ddTermW (R := R) n m x y vs k p q + ddTermW n m x y vs k q p = 0 := by
  rw [ddTermW, ddTermW,
    show dropIdx p q = q - 1 from by rw [dropIdx, if_neg (by omega)],
    show dropIdx q p = p from by rw [dropIdx, if_pos hpq],
    sgnR_pred q (by omega), ddKeyXX_symm m x y vs p q,
    ddKeyXY_swap m x y vs n p q, ddKeyYX_swap m x y vs n p q,
    ddKeyYY_symm m x y vs n p q]
  ring

theorem liftIdx_dropIdx (p q : ℕ) (h : p ≠ q) :
    liftIdx p (dropIdx p q) = q := by
  rw [liftIdx, dropIdx]
  split_ifs <;> omega

/-- Chain condition in the general case: for a vertex tuple of length at
least four both applications of the differential take the general branch and
the double sum cancels in pairs of removal orders. -/
theorem coeffE_dd_zero_of_len4 {R : Type} [CommRing R] (n : ℕ) (m : List ℤ)
    (x y : ℤ) (vs : List ℤ) (hlen : 4 ≤ vs.length) (k : BasisElt) :
    coeffE (linextE (compute_differential (R := R) n)
      (compute_differential n (m, some ((x, y), vs)))) k = 0 := by
  rw [coeffE_dd_general n m x y vs (by omega) k]
  have hstep1 : ∀ i ∈ Finset.range vs.length,
      (indE (1 < x) * (sgnR i * coeffE (compute_differential (R := R) n
          (dKeyX m x y vs n i)) k) +
        indE (1 < y) * (-sgnR i * coeffE (compute_differential (R := R) n
          (dKeyY m x y vs n i)) k)) =
      ∑ j ∈ Finset.range (vs.length - 1), ddTermV n m x y vs k i j := by
    intro i hi
    have hil : i < vs.length := Finset.mem_range.mp hi
    have hlen' : (vs.eraseIdx i).length = vs.length - 1 := by
      rw [List.length_eraseIdx, if_pos hil]
    rw [show dKeyX m x y vs n i = (increment_tuple m (vs.getD i 0),
        some ((x - 1, y), vs.eraseIdx i)) from rfl,
      show dKeyY m x y vs n i = (increment_tuple m (vs.getD i 0 + (n : ℤ)),
        some ((x, y - 1), vs.eraseIdx i)) from rfl,
      coeffE_differential_general n _ (x - 1) y (vs.eraseIdx i)
        (by rw [hlen']; omega) k,
      coeffE_differential_general n _ x (y - 1) (vs.eraseIdx i)
        (by rw [hlen']; omega) k,
      hlen', Finset.mul_sum, Finset.mul_sum, Finset.mul_sum, Finset.mul_sum,
      ← Finset.sum_add_distrib]
    rfl
  refine (Finset.sum_congr rfl hstep1).trans ?_
  rw [← Finset.sum_product']
  have hbij :
      (∑ a ∈ Finset.range vs.length ×ˢ Finset.range (vs.length - 1),
        ddTermV (R := R) n m x y vs k a.1 a.2) =
      ∑ pq ∈ (Finset.range vs.length ×ˢ Finset.range vs.length).filter
        (fun pq => pq.1 ≠ pq.2), ddTermW n m x y vs k pq.1 pq.2 := by
    refine Finset.sum_nbij' (fun a => (a.1, liftIdx a.1 a.2))
      (fun pq => (pq.1, dropIdx pq.1 pq.2)) ?_ ?_ ?_ ?_ ?_
    · intro a ha
      rw [Finset.mem_product, Finset.mem_range, Finset.mem_range] at ha
      dsimp only
      rw [Finset.mem_filter, Finset.mem_product, Finset.mem_range,
        Finset.mem_range]
      refine ⟨⟨ha.1, ?_⟩, ?_⟩
      · rw [liftIdx]
        split <;> omega
      · rw [liftIdx]
        split <;> omega
    · intro pq hpq
      rw [Finset.mem_filter, Finset.mem_product, Finset.mem_range,
        Finset.mem_range] at hpq
      dsimp only
      rw [Finset.mem_product, Finset.mem_range, Finset.mem_range]
      refine ⟨hpq.1.1, ?_⟩
      have hne := hpq.2
      rw [dropIdx]
      split <;> omega
    · intro a ha
      dsimp only
      rw [dropIdx_liftIdx]
    · intro pq hpq
      rw [Finset.mem_filter] at hpq
      dsimp only
      rw [liftIdx_dropIdx pq.1 pq.2 hpq.2]
    · intro a ha
      exact ddTermV_eq_W n m x y vs k a.1 a.2
  rw [hbij]
  refine Finset.sum_involution (fun pq _ => (pq.2, pq.1)) ?_ ?_ ?_ ?_
  · intro pq hpq
    rw [Finset.mem_filter] at hpq
    rcases lt_or_gt_of_ne hpq.2 with hlt | hgt
    · exact ddTermW_add_swap n m x y vs k pq.1 pq.2 hlt
    · rw [add_comm]
      exact ddTermW_add_swap n m x y vs k pq.2 pq.1 hgt
  · intro pq hpq _
    rw [Finset.mem_filter] at hpq
    intro heq
    have heq2 : (pq.2, pq.1) = pq := heq
    exact hpq.2 (congrArg Prod.fst heq2).symm
  · intro pq hpq
    rw [Finset.mem_filter, Finset.mem_product, Finset.mem_range,
      Finset.mem_range] at hpq
    rw [Finset.mem_filter, Finset.mem_product, Finset.mem_range,
      Finset.mem_range]
    exact ⟨⟨hpq.1.2, hpq.1.1⟩, fun h => hpq.2 h.symm⟩
  · intro pq hpq
    rfl

/-- Coefficient of a basis key under the two-vertex special case of the
differential. -/
theorem coeffE_differential_special {R : Type} [CommRing R] (n : ℕ)
    (m' : List ℤ) (x' y' i j : ℤ) (k : BasisElt) :
    coeffE (compute_differential (R := R) n (m', some ((x', y'), [i, j]))) k =
      indE ((increment_tuple (increment_tuple m' i) (j + (n : ℤ)),
        (none : SPart)) = k) -
      indE ((increment_tuple (increment_tuple m' j) (i + (n : ℤ)),
        (none : SPart)) = k) := by
  rw [show compute_differential (R := R) n (m', some ((x', y'), [i, j])) =
      subE (monomialE (increment_tuple (increment_tuple m' i) (j + (n : ℤ)),
        none))
        (monomialE (increment_tuple (increment_tuple m' j) (i + (n : ℤ)),
          none)) from rfl,
    coeffE_subE, coeffE_monomialE, coeffE_monomialE]
  rfl

theorem inc3_swap13 (t : List ℤ) (p q r : ℤ) :
    increment_tuple (increment_tuple (increment_tuple t p) q) r =
      increment_tuple (increment_tuple (increment_tuple t r) q) p := by
  rw [increment_tuple_comm (increment_tuple t p) q r,
    increment_tuple_comm t p r,
    increment_tuple_comm (increment_tuple t r) p q]

theorem inc3_swap12 (t : List ℤ) (p q r : ℤ) :
    increment_tuple (increment_tuple (increment_tuple t p) q) r =
      increment_tuple (increment_tuple (increment_tuple t q) p) r := by
  rw [increment_tuple_comm t p q]

/-- Chain condition at homological degree 2: for a three-vertex tuple the
second application of the differential takes the two-vertex special case and
the six resulting degree-0 terms cancel in pairs. -/
theorem coeffE_dd_zero_of_len3 {R : Type} [CommRing R] (n : ℕ) (m : List ℤ)
    (x y : ℤ) (a b c : ℤ) (hx : 1 ≤ x) (hy : 1 ≤ y) (hxy : x + y = 3)
    (k : BasisElt) :
    coeffE (linextE (compute_differential (R := R) n)
      (compute_differential n (m, some ((x, y), [a, b, c])))) k = 0 := by
  have hs0 : sgnR (R := R) 0 = 1 := by rw [sgnR]; norm_num
  have hs1 : sgnR (R := R) 1 = -1 := by rw [sgnR]; norm_num
  have hs2 : sgnR (R := R) 2 = 1 := by rw [sgnR]; norm_num
  have hi1 : indE (R := R) (1 < (1 : ℤ)) = 0 := by rw [indE]; norm_num
  have hi2 : indE (R := R) (1 < (2 : ℤ)) = 1 := by rw [indE]; norm_num
  have hexp : ∀ f : ℕ → R, ∑ i ∈ Finset.range 3, f i = f 0 + f 1 + f 2 := by
    intro f
    rw [show (3 : ℕ) = 2 + 1 from rfl, Finset.sum_range_succ,
      show (2 : ℕ) = 1 + 1 from rfl, Finset.sum_range_succ,
      show (1 : ℕ) = 0 + 1 from rfl, Finset.sum_range_succ,
      Finset.sum_range_zero, zero_add]
  rcases (show (x = 1 ∧ y = 2) ∨ (x = 2 ∧ y = 1) by omega) with ⟨hx1, hy2⟩ | ⟨hx2, hy1⟩
  · subst hx1
    subst hy2
    rw [coeffE_dd_general n m 1 2 [a, b, c] (by simp) k,
      show ([a, b, c] : List ℤ).length = 3 from rfl, hexp]
    simp only [dKeyX, dKeyY, List.getD_cons_zero, List.getD_cons_succ,
      List.eraseIdx_cons_zero, List.eraseIdx_cons_succ]
    simp only [coeffE_differential_special]
    rw [hs0, hs1, hs2, hi1, hi2]
    rw [inc3_swap13 m (b + (n : ℤ)) c (a + (n : ℤ)),
      inc3_swap13 m (c + (n : ℤ)) b (a + (n : ℤ)),
      inc3_swap13 m (c + (n : ℤ)) a (b + (n : ℤ))]
    ring
  · subst hx2
    subst hy1
    rw [coeffE_dd_general n m 2 1 [a, b, c] (by simp) k,
      show ([a, b, c] : List ℤ).length = 3 from rfl, hexp]
    simp only [dKeyX, dKeyY, List.getD_cons_zero, List.getD_cons_succ,
      List.eraseIdx_cons_zero, List.eraseIdx_cons_succ]
    simp only [coeffE_differential_special]
    rw [hs0, hs1, hs2, hi1, hi2]
    rw [inc3_swap12 m b a (c + (n : ℤ)),
      inc3_swap12 m c a (b + (n : ℤ)),
      inc3_swap12 m c b (a + (n : ℤ))]
    ring

/-- C1: for every well-formed basis element of homological degree at least 2
(S-part with x_deg, y_deg at least 1 summing to the tuple length, a strictly
increasing vertex tuple of length at least 3 drawn from 0..n_vertices - 1),
applying compute_differential and then the linear extension of
compute_differential yields the exact additive zero of the free module. -/
theorem c1_differential_squared_zero {R : Type} [CommRing R] (n : ℕ)
    (m : List ℤ) (x y : ℤ) (vs : List ℤ) (hx : 1 ≤ x) (hy : 1 ≤ y)
    (hxy : x + y = (vs.length : ℤ)) (hlen : 3 ≤ vs.length)
    (hsort : List.Sorted (· < ·) vs)
    (hrange : ∀ v ∈ vs, 0 ≤ v ∧ v < (n : ℤ)) :
    ElemEq
      (create_differential_morphism n
        (compute_differential (R := R) n (m, some ((x, y), vs))))
      zeroE := by
  intro k
  rw [show coeffE (R := R) (zeroE : FreeE R BasisElt) k = 0 from rfl,
    create_differential_morphism]
  by_cases h3 : vs.length = 3
  · rcases vs with - | ⟨a, - | ⟨b, - | ⟨c, - | ⟨d, t⟩⟩⟩⟩
    · simp at h3
    · simp at h3
    · simp at h3
    · rw [show ([a, b, c] : List ℤ).length = 3 from rfl] at hxy
      exact coeffE_dd_zero_of_len3 n m x y a b c hx hy (by omega) k
    · simp only [List.length_cons] at h3
      omega
  · exact coeffE_dd_zero_of_len4 n m x y vs (by omega) k

/-- Witness for C1: n_vertices = 3, the zero coefficient vector of length 6,
bidegree (1, 2) and vertex tuple (0, 1, 2); the double differential is the
additive zero. -/
theorem c1_witness :
    ElemEq
      (create_differential_morphism 3
        (compute_differential (R := ℤ) 3
          (List.replicate 6 0, some ((1, 2), [0, 1, 2]))))
      zeroE :=
  c1_differential_squared_zero 3 (List.replicate 6 0) 1 2 [0, 1, 2]
    (by decide) (by decide) (by decide) (by decide) (by decide) (by decide)

/-- C5: for every basis element whose S-part has a vertex tuple of exactly two
vertices (i, j) with i < j, compute_differential returns the monomial with the
coefficient vector incremented at position i and at position j + n_vertices
(empty S-part) minus the monomial with the coefficient vector incremented at
position j and at position i + n_vertices (empty S-part). -/
theorem c5_differential_degree_one {R : Type} [CommRing R] (n_vertices : ℕ)
    (m : List ℤ) (x_deg y_deg i j : ℤ) (hij : i < j) :
    compute_differential (R := R) n_vertices (m, some ((x_deg, y_deg), [i, j])) =
      subE
        (monomialE (increment_tuple (increment_tuple m i) (j + (n_vertices : ℤ)), none))
        (monomialE (increment_tuple (increment_tuple m j) (i + (n_vertices : ℤ)), none)) :=
  rfl

/-- Witness for C5 at the spec's end-to-end instance: n_vertices = 5, zero
coefficient vector, S-part ((1,1),(0,1)); the result is
monomial(e_0 + e_6) - monomial(e_1 + e_5) in the degree-0 sector. -/
theorem c5_witness :
    (0 : ℤ) < 1 ∧
      compute_differential (R := ℤ) 5
          (List.replicate 10 (0 : ℤ), some ((1, 1), [0, 1])) =
        subE (monomialE ([1, 0, 0, 0, 0, 0, 1, 0, 0, 0], none))
          (monomialE ([0, 1, 0, 0, 0, 1, 0, 0, 0, 0], none)) := by
  refine ⟨by decide, ?_⟩
  rw [c5_differential_degree_one 5 (List.replicate 10 (0 : ℤ)) 1 1 0 1 (by decide)]
  decide
